import Mathlib

/-!
Verification of the store-monitoring availability core
(`business_hours_utils.py`, `report_generator.py`, `data_processor.py`,
`report_service.py`) against its specification.

Modelling conventions
---------------------
* Local civil timestamps are modelled as `Nat` microseconds since a fixed
  epoch whose day 0 is a Monday (Python's `weekday()` convention, 0 = Monday).
  Python `datetime` values have microsecond resolution, and the code's
  `23:59:59.999999` end-of-day sentinel as well as `total_seconds()`
  truncation via `int(...)` are microsecond-exact, so this embedding is
  exact for every value the program can manipulate.
* A weekly calendar (`business_hours` dict) is a partial map from weekday
  numbers to `(open, close)` times of day, both in microseconds
  (`Cal := Nat → Option (Nat × Nat)`); it is only ever queried at
  `d % 7`, mirroring `local_timestamp.weekday()`.
* Observation rows carry a `Bool` state: `true` models `status == 'active'`
  (any other status string falls into the `else` branch of the source,
  i.e. behaves as `false`).
* `int((b - a).total_seconds())` for `a ≤ b` at microsecond resolution is
  exactly `(b - a) / 1000000` in `Nat`.
-/

/-- Microseconds per second. -/
def usPerSec : Nat := 1000000

/-- Microseconds per civil day. -/
def usPerDay : Nat := 86400000000

/-- A weekly business-hours table: weekday (0 = Monday) to the parsed
`(start_time_local, end_time_local)` pair, as microsecond times of day.
`none` models absence of the key in the Python dict. -/
def Cal : Type := Nat → Option (Nat × Nat)

/-- `validate_timezone` (business_hours_utils.py:20-26): returns the input
string when it is a member of the valid-zone set, otherwise the fixed
default `"America/Chicago"`.  The valid set (`pytz.all_timezones`) is an
external constant, passed here as a parameter. -/
def validate_timezone (valid : List String) (tz : String) : String :=
  if tz ∈ valid then tz else "America/Chicago"

/-- `convert_utc_to_local_safe` (business_hours_utils.py:40-63): resolves the
zone through `validate_timezone`, then converts via the timezone library
(an external effect, modelled by the oracle `conv`, which may fail);
on any conversion failure the original timestamp is returned unchanged. -/
def convert_utc_to_local_safe (valid : List String)
    (conv : String → Nat → Except Unit Nat) (t : Nat) (tz : String) : Nat :=
  match conv (validate_timezone valid tz) t with
  | .ok l => l
  | .error _ => t

/-- `is_within_business_hours_enhanced` (business_hours_utils.py:65-102):
open/closed test for a local instant, including the carry-over of a
previous weekday's overnight (wrapping) interval. -/
def is_within_business_hours_enhanced (t : Nat) (cal : Cal) : Bool :=
  let w := t / usPerDay % 7
  let tod := t % usPerDay
  let today : Bool :=
    match cal w with
    | some (o, c) =>
        if o ≤ c then decide (o ≤ tod ∧ tod ≤ c)
        else decide (o ≤ tod ∨ tod ≤ c)
    | none => false
  if today then true
  else
    match cal ((w + 6) % 7) with
    | some (po, pc) => decide (pc < po ∧ tod ≤ pc)
    | none => false

/-- The spec's wording for `isOpen` (§4.2): open iff today's interval covers
the time of day (inclusive for a normal interval, wrap-around for a
wrapping one) or the previous weekday's interval wraps and reaches past
midnight up to the instant's time of day. -/
def isOpenSpec (t : Nat) (cal : Cal) : Prop :=
  (∃ o c, cal (t / usPerDay % 7) = some (o, c) ∧
    ((o ≤ c ∧ o ≤ t % usPerDay ∧ t % usPerDay ≤ c) ∨
     (c < o ∧ (o ≤ t % usPerDay ∨ t % usPerDay ≤ c)))) ∨
  (∃ po pc, cal ((t / usPerDay % 7 + 6) % 7) = some (po, pc) ∧
    pc < po ∧ t % usPerDay ≤ pc)

/-- The per-day body of the `while` loop of
`_calculate_business_seconds_between` (report_generator.py:260-290):
overlap, in microseconds, of `[cur, e]` with the business interval of
`cur`'s calendar day (a wrapping interval's close time is pushed to the
next day).  The source only accumulates when the overlap is positive;
truncated `Nat` subtraction yields the same value. -/
def dayOverlap (cur e : Nat) (cal : Cal) : Nat :=
  match cal (cur / usPerDay % 7) with
  | none => 0
  | some (o, c) =>
    let bs := cur / usPerDay * usPerDay + o
    let be := cur / usPerDay * usPerDay + c + (if c < o then usPerDay else 0)
    let ps := max cur bs
    let pe := min e be
    if ps < pe then pe - ps else 0

/-- The `while current_time < end_time` loop of
`_calculate_business_seconds_between`, as structural recursion on a fuel
that bounds the number of walked days: each iteration adds the day's
overlap and jumps to the next midnight.  The wrapper passes fuel
`e / usPerDay + 1 - s / usPerDay`, which is exactly the number of days the
source loop can touch, so the cut-off branch is never reached. -/
def bizLoop : Nat → Nat → Nat → Cal → Nat
  | 0, _, _, _ => 0
  | fuel + 1, cur, e, cal =>
    if cur < e then
      dayOverlap cur e cal + bizLoop fuel ((cur / usPerDay + 1) * usPerDay) e cal
    else 0

/-- `_calculate_business_seconds_between` (report_generator.py:251-296):
returns 0 when `start_time >= end_time`, otherwise walks day by day and
truncates the accumulated seconds (`int(total_seconds)`, i.e. dividing the
microsecond total by 10^6). -/
def calculate_business_seconds_between (s e : Nat) (cal : Cal) : Nat :=
  if e ≤ s then 0
  else bizLoop (e / usPerDay + 1 - s / usPerDay) s e cal / usPerSec

/-- The intervals emitted for one walked day by
`get_business_hours_intervals` (business_hours_utils.py:163-216): one
clipped interval for a normal day, up to two (before/after midnight, the
first capped at 23:59:59.999999) for a wrapping day. -/
def dayIntervals (d : Nat) (s e : Nat) (cal : Cal) : List (Nat × Nat) :=
  match cal (d % 7) with
  | none => []
  | some (o, c) =>
    let istart := d * usPerDay + o
    if o ≤ c then
      let a := max istart s
      let b := min (d * usPerDay + c) e
      if a < b then [(a, b)] else []
    else
      let a1 := max istart s
      let b1 := min (d * usPerDay + 86399999999) e
      let part1 := if a1 < b1 then [(a1, b1)] else []
      let a2 := max ((d + 1) * usPerDay) s
      let b2 := min ((d + 1) * usPerDay + c) e
      let part2 := if a2 < b2 then [(a2, b2)] else []
      part1 ++ part2

/-- `get_business_hours_intervals` (business_hours_utils.py:154-218): walks
the days from `start_date`'s midnight while `current_date <= end_date`
(i.e. the day indices `s / usPerDay, …, e / usPerDay`) and concatenates
each day's clipped intervals. -/
def get_business_hours_intervals (s e : Nat) (cal : Cal) : List (Nat × Nat) :=
  ((List.range (e / usPerDay + 1 - s / usPerDay)).map (fun k => s / usPerDay + k)).flatMap
    (fun d => dayIntervals d s e cal)

/-- `calculate_total_business_seconds_precise`
(business_hours_utils.py:220-235): 0 for a degenerate span, otherwise the
sum of each interval's truncated duration in seconds. -/
def calculate_total_business_seconds_precise (s e : Nat) (cal : Cal) : Nat :=
  if e ≤ s then 0
  else ((get_business_hours_intervals s e cal).map
    (fun p => (p.2 - p.1) / usPerSec)).sum

/-- The tail of the multiple-observation loop of
`_interpolate_uptime_downtime` (report_generator.py:207-247), started at
the first observation: each consecutive gap `[prev.1, o.1]` is attributed
to the earlier observation's state `prev.2`, and the trailing gap
`[t_n, localEnd]` to the last observation's state.  Returns
`(uptime, downtime)` in whole seconds. -/
def interpGo (prev : Nat × Bool) (rest : List (Nat × Bool)) (le : Nat)
    (cal : Cal) : Nat × Nat :=
  match rest with
  | [] =>
    let sec := calculate_business_seconds_between prev.1 le cal
    if prev.2 then (sec, 0) else (0, sec)
  | o :: tl =>
    let sec := calculate_business_seconds_between prev.1 o.1 cal
    let r := interpGo o tl le cal
    if prev.2 then (r.1 + sec, r.2) else (r.1, r.2 + sec)

/-- `_interpolate_uptime_downtime` (report_generator.py:168-249): the
single-observation special case attributes both surrounding gaps to that
observation's state; with two or more observations the leading gap
`[localStart, t0]` takes the first observation's state and the loop plus
trailing step (`interpGo`) handle the rest.  An empty list never reaches
this function in the source (the caller filters it out); the loop then
contributes nothing, matching the source's `for`/`if status_data:`. -/
def interpolate_uptime_downtime (obs : List (Nat × Bool)) (ls le : Nat)
    (cal : Cal) : Nat × Nat :=
  match obs with
  | [] => (0, 0)
  | [o] =>
    let before := calculate_business_seconds_between ls o.1 cal
    let after := calculate_business_seconds_between o.1 le cal
    if o.2 then (before + after, 0) else (0, before + after)
  | o :: tl =>
    let sec0 := calculate_business_seconds_between ls o.1 cal
    let r := interpGo o tl le cal
    if o.2 then (r.1 + sec0, r.2) else (r.1, r.2 + sec0)

/-- The branch structure of `_calculate_period_metrics`
(report_generator.py:127-166) from the point where the business-hours
filtered, chronologically sorted local observations are in hand: an empty
sequence yields `uptime = 0`, `downtime` = the whole span's business
seconds; otherwise the interpolator runs.  (Fetching, timezone conversion,
filtering and sorting happen upstream; the claims quantify over the
already-filtered sorted sequence.) -/
def calculate_period_metrics (obs : List (Nat × Bool)) (ls le : Nat)
    (cal : Cal) : Nat × Nat :=
  if obs = [] then (0, calculate_business_seconds_between ls le cal)
  else interpolate_uptime_downtime obs ls le cal

/-- Modelled from the spec's §4.4 wording: the list of forward-fill gaps
for a non-empty observation sequence — `[localStart, t0]` attributed to
`s0`, each `[t_im1, t_i]` to `s_im1`, and the trailing `[t_n, localEnd]`
to `s_n`.  Entries are `(gapStart, gapEnd, attributedState)`. -/
def forwardFillAux (le : Nat) (prev : Nat × Bool) :
    List (Nat × Bool) → List (Nat × Nat × Bool)
  | [] => [(prev.1, le, prev.2)]
  | o :: tl => (prev.1, o.1, prev.2) :: forwardFillAux le o tl

/-- Modelled from the spec's §4.4 wording: full gap list for a span. -/
def forwardFillGaps (ls le : Nat) (obs : List (Nat × Bool)) :
    List (Nat × Nat × Bool) :=
  match obs with
  | [] => []
  | o :: tl => (ls, o.1, o.2) :: forwardFillAux le o tl

/-- Modelled from the spec's §4.4 wording: the interpolator's contract —
an empty sequence attributes the whole span to downtime; otherwise uptime
(resp. downtime) is the sum of the business seconds of the gaps attributed
to the open (resp. closed) state. -/
def spec_period_metrics (obs : List (Nat × Bool)) (ls le : Nat)
    (cal : Cal) : Nat × Nat :=
  if obs = [] then (0, calculate_business_seconds_between ls le cal)
  else
    let gs := forwardFillGaps ls le obs
    (((gs.filter (fun g => g.2.2 = true)).map
        (fun g => calculate_business_seconds_between g.1 g.2.1 cal)).sum,
     ((gs.filter (fun g => g.2.2 = false)).map
        (fun g => calculate_business_seconds_between g.1 g.2.1 cal)).sum)

/-- The 24/7 default calendar built by `get_business_hours`
(data_processor.py:93-95) for a store with no configured rows:
`{i: (time(0,0), time(23,59,59)) for i in range(7)}`. -/
def defaultCal : Cal := fun w =>
  if w < 7 then some (0, 86399000000) else none

/-- `get_business_hours` (data_processor.py:89-108) after time-string
parsing: rows are `(day_of_week, start, end)` triples; no rows at all
yields the 24/7 default, otherwise dict insertion order makes the last
row for a weekday win. -/
def get_business_hours (rows : List (Nat × Nat × Nat)) : Cal :=
  if rows = [] then defaultCal
  else fun w => ((rows.filter (fun r => r.1 = w)).map
    (fun r => (r.2.1, r.2.2))).getLast?

/-- One output row of the report (report_generator.py:117-125): store id
plus the six rounded metrics.  The metric values themselves come from
`_calculate_store_metrics` (abstracted by an oracle in `process_stores`);
rounding is irrelevant to the claims. -/
structure Row where
  store_id : Nat
  uptime_last_hour : Rat
  uptime_last_day : Rat
  uptime_last_week : Rat
  downtime_last_hour : Rat
  downtime_last_day : Rat
  downtime_last_week : Rat
  deriving DecidableEq

/-- The all-zero fallback row appended for a failed store
(report_generator.py:66-74). -/
def zeroRow (sid : Nat) : Row := ⟨sid, 0, 0, 0, 0, 0, 0⟩

/-- The per-store loop of `generate_report_async`
(report_generator.py:54-74): each store's metrics computation
(`_calculate_store_metrics`, abstracted as the fallible oracle `compute`)
runs inside a `try`; an exception is caught and replaced by the zero row,
and the loop continues with the next store. -/
def process_stores (ids : List Nat) (compute : Nat → Except Unit Row) :
    List Row :=
  ids.map (fun sid =>
    match compute sid with
    | .ok r => r
    | .error _ => zeroRow sid)

/-- Report status values (models the `status` strings of `ReportStatus`). -/
inductive JStatus where
  | running
  | complete
  | failed
  deriving DecidableEq

/-- A committed snapshot of a report's status record: status plus the
`completed_at` / `file_path` columns. -/
structure JobRec where
  status : JStatus
  completed_at : Option Nat
  file_path : Option Nat
  deriving DecidableEq

/-- The external effects `generate_report_async` depends on, each fallible
step modelled as an `Except` oracle: `get_max_timestamp`,
`get_all_store_ids`, per-store metrics, CSV export (returning a file-path
handle), and the two `db.commit()` calls. -/
structure Oracles where
  maxTs : Except Unit Nat
  storeIds : Except Unit (List Nat)
  compute : Nat → Except Unit Row
  exportCsv : List Row → Except Unit Nat
  commitComplete : Except Unit Unit
  commitFailed : Except Unit Unit

/-- The `except` branch of `generate_report_async`
(report_generator.py:86-93): the record (which exists, having been created
by `trigger_report`) is set to `Failed` and committed; if that commit also
fails, no further committed snapshot is produced (the exception propagates
to the background wrapper, which only logs it). -/
def failTransition (o : Oracles) : List JobRec :=
  match o.commitFailed with
  | .ok _ => [⟨.failed, none, none⟩]
  | .error _ => []

/-- `generate_report_async` (report_generator.py:28-93) as the sequence of
committed status snapshots it appends after the record's creation: the
happy path commits exactly one `Complete` snapshot carrying
`completed_at` and `file_path`; any job-level exception (max-timestamp /
store-id enumeration / CSV export / the Complete commit itself) routes
through the single `except` branch.  Per-store failures are absorbed by
`process_stores` and never reach this level. -/
def generate_report_async (o : Oracles) (now : Nat) : List JobRec :=
  match o.maxTs with
  | .error _ => failTransition o
  | .ok _ =>
    match o.storeIds with
    | .error _ => failTransition o
    | .ok ids =>
      let rows := process_stores ids o.compute
      match o.exportCsv rows with
      | .error _ => failTransition o
      | .ok path =>
        match o.commitComplete with
        | .ok _ => [⟨.complete, some now, some path⟩]
        | .error _ => failTransition o

/-- `trigger_report` (report_service.py:19-51) followed by the background
run: the record is created and committed in state `Running`, then the
generator appends its committed transitions.  The result is the full
sequence of committed snapshots of one job's status record. -/
def trigger_report (o : Oracles) (now : Nat) : List JobRec :=
  ⟨.running, none, none⟩ :: generate_report_async o now

/-! ### Proof support: the day-walk as a sum over day indices -/

/-- Uniform per-day overlap: `ovd lo e d cal` is the microsecond overlap the
day-walk attributes to day `d` when the running cursor is at `lo`.
Truncated subtraction replaces the positivity guard of `dayOverlap`. -/
def ovd (lo e d : Nat) (cal : Cal) : Nat :=
  match cal (d % 7) with
  | none => 0
  | some (o, c) =>
    min e (d * usPerDay + c + (if c < o then usPerDay else 0))
      - max lo (d * usPerDay + o)

/-- Sum of `f` over the `n` consecutive day indices starting at `d0`. -/
def walkSum (d0 n : Nat) (f : Nat → Nat) : Nat :=
  ((List.range n).map (fun k => f (d0 + k))).sum

/-- Concrete calendar: Monday 22:00–06:00, a wrapping (overnight) interval;
all other weekdays closed. -/
def calMonWrap : Cal := fun w =>
  if w = 0 then some (79200000000, 21600000000) else none

/-- Concrete calendar: Monday 22:00–06:00 (wrapping) and Tuesday
03:00–10:00. -/
def calWrapTue : Cal := fun w =>
  if w = 0 then some (79200000000, 21600000000)
  else if w = 1 then some (10800000000, 36000000000) else none

theorem usPerDay_pos : 0 < usPerDay := by norm_num [usPerDay]

theorem lt_next_midnight (t : Nat) : t < (t / usPerDay + 1) * usPerDay := by
  have h := Nat.div_add_mod t usPerDay
  have h2 : t % usPerDay < usPerDay := Nat.mod_lt _ usPerDay_pos
  have h3 : (t / usPerDay + 1) * usPerDay
      = usPerDay * (t / usPerDay) + usPerDay := by ring
  omega

theorem next_midnight_div (t : Nat) :
    (t / usPerDay + 1) * usPerDay / usPerDay = t / usPerDay + 1 :=
  Nat.mul_div_cancel _ usPerDay_pos

theorem dayOverlap_eq_ovd (cur e : Nat) (cal : Cal) :
    dayOverlap cur e cal = ovd cur e (cur / usPerDay) cal := by
  unfold dayOverlap ovd
  cases h : cal (cur / usPerDay % 7) with
  | none => rfl
  | some p =>
    cases p with
    | mk o c =>
      simp only
      split_ifs <;> omega

theorem ovd_of_some {cal : Cal} {d o c : Nat} (h : cal (d % 7) = some (o, c))
    (lo e : Nat) :
    ovd lo e d cal =
      min e (d * usPerDay + c + (if c < o then usPerDay else 0))
        - max lo (d * usPerDay + o) := by
  unfold ovd
  rw [h]

theorem ovd_eq_zero_of_le {lo e : Nat} (h : e ≤ lo) (d : Nat) (cal : Cal) :
    ovd lo e d cal = 0 := by
  unfold ovd
  cases hc : cal (d % 7) with
  | none => rfl
  | some p =>
    cases p with
    | mk o c =>
      simp only
      split_ifs <;> omega

/-- A day strictly after the span's end contributes nothing. -/
theorem ovd_eq_zero_of_end_le {e d : Nat} (h : e ≤ d * usPerDay) (lo : Nat)
    (cal : Cal) : ovd lo e d cal = 0 := by
  unfold ovd
  cases hc : cal (d % 7) with
  | none => rfl
  | some p =>
    cases p with
    | mk o c =>
      simp only
      split_ifs <;> omega

/-- Under a calendar with no wrapping interval and in-range close times, a
day that ends at or before the cursor contributes nothing. -/
theorem ovd_eq_zero_of_nowrap_lt {cal : Cal}
    (hcal : ∀ w, w < 7 → ∀ o c, cal w = some (o, c) → o ≤ c ∧ c < usPerDay)
    {lo d : Nat} (h : (d + 1) * usPerDay ≤ lo) (e : Nat) :
    ovd lo e d cal = 0 := by
  unfold ovd
  cases hc : cal (d % 7) with
  | none => rfl
  | some p =>
    cases p with
    | mk o c =>
      obtain ⟨hoc, hcU⟩ := hcal (d % 7) (Nat.mod_lt _ (by norm_num)) o c hc
      simp only
      rw [if_neg (by omega)]
      have h3 : (d + 1) * usPerDay = d * usPerDay + usPerDay := by ring
      omega

/-- The cursor's lower clip is irrelevant for any strictly later day. -/
theorem ovd_congr_lo {lo lo' d : Nat} (h : lo ≤ d * usPerDay)
    (h' : lo' ≤ d * usPerDay) (e : Nat) (cal : Cal) :
    ovd lo e d cal = ovd lo' e d cal := by
  unfold ovd
  cases hc : cal (d % 7) with
  | none => rfl
  | some p =>
    cases p with
    | mk o c =>
      simp only
      split_ifs <;> omega

theorem walkSum_zero (d0 : Nat) (f : Nat → Nat) : walkSum d0 0 f = 0 := rfl

theorem walkSum_succ (d0 n : Nat) (f : Nat → Nat) :
    walkSum d0 (n + 1) f = f d0 + walkSum (d0 + 1) n f := by
  unfold walkSum
  rw [List.range_succ_eq_map, List.map_cons, List.sum_cons, List.map_map]
  have : ((fun k => f (d0 + k)) ∘ Nat.succ) = fun k => f (d0 + 1 + k) := by
    funext k
    simp only [Function.comp_apply]
    congr 1
    omega
  rw [this, Nat.add_zero]

theorem walkSum_one (d0 : Nat) (f : Nat → Nat) : walkSum d0 1 f = f d0 := by
  rw [walkSum_succ, walkSum_zero, Nat.add_zero]

theorem walkSum_split (d0 m n : Nat) (f : Nat → Nat) :
    walkSum d0 (m + n) f = walkSum d0 m f + walkSum (d0 + m) n f := by
  induction m generalizing d0 with
  | zero => simp [walkSum_zero]
  | succ m ih =>
    have h1 : m + 1 + n = (m + n) + 1 := by omega
    rw [h1, walkSum_succ, walkSum_succ, ih (d0 + 1)]
    have h2 : d0 + 1 + m = d0 + (m + 1) := by omega
    rw [h2, Nat.add_assoc]

theorem walkSum_congr {d0 n : Nat} {f g : Nat → Nat}
    (h : ∀ k, k < n → f (d0 + k) = g (d0 + k)) :
    walkSum d0 n f = walkSum d0 n g := by
  unfold walkSum
  congr 1
  apply List.map_congr_left
  intro k hk
  exact h k (List.mem_range.mp hk)

theorem walkSum_eq_zero {d0 n : Nat} {f : Nat → Nat}
    (h : ∀ k, k < n → f (d0 + k) = 0) : walkSum d0 n f = 0 := by
  induction n generalizing d0 with
  | zero => rfl
  | succ n ih =>
    rw [walkSum_succ]
    have h0 : f d0 = 0 := by simpa using h 0 (by omega)
    rw [h0, ih, Nat.add_zero]
    intro k hk
    rw [show d0 + 1 + k = d0 + (k + 1) by omega]
    exact h (k + 1) (by omega)

theorem walkSum_add_distrib (d0 n : Nat) (f g : Nat → Nat) :
    walkSum d0 n (fun d => f d + g d) = walkSum d0 n f + walkSum d0 n g := by
  induction n generalizing d0 with
  | zero => rfl
  | succ n ih =>
    rw [walkSum_succ, walkSum_succ, walkSum_succ, ih]
    omega

theorem dvd_walkSum {m d0 n : Nat} {f : Nat → Nat}
    (h : ∀ k, k < n → m ∣ f (d0 + k)) : m ∣ walkSum d0 n f := by
  induction n generalizing d0 with
  | zero => simp [walkSum_zero]
  | succ n ih =>
    rw [walkSum_succ]
    refine Nat.dvd_add (by simpa using h 0 (by omega)) (ih ?_)
    intro k hk
    rw [show d0 + 1 + k = d0 + (k + 1) by omega]
    exact h (k + 1) (by omega)

theorem walkSum_div {m d0 n : Nat} {f : Nat → Nat}
    (h : ∀ k, k < n → m ∣ f (d0 + k)) :
    walkSum d0 n (fun d => f d / m) = walkSum d0 n f / m := by
  induction n generalizing d0 with
  | zero => simp [walkSum_zero]
  | succ n ih =>
    rw [walkSum_succ, walkSum_succ,
      Nat.add_div_of_dvd_right (by simpa using h 0 (by omega)),
      ih]
    intro k hk
    rw [show d0 + 1 + k = d0 + (k + 1) by omega]
    exact h (k + 1) (by omega)

/-- The fueled loop equals the sum of per-day overlaps over the day indices
`cur / usPerDay, …, e / usPerDay`, whenever the fuel covers that range. -/
theorem bizLoop_eq_walkSum (fuel : Nat) :
    ∀ cur e cal, e / usPerDay + 1 ≤ cur / usPerDay + fuel →
    bizLoop fuel cur e cal =
      walkSum (cur / usPerDay) (e / usPerDay + 1 - cur / usPerDay)
        (fun d => ovd cur e d cal) := by
  induction fuel with
  | zero =>
    intro cur e cal h
    have : e / usPerDay + 1 - cur / usPerDay = 0 := by omega
    rw [this, walkSum_zero]
    rfl
  | succ fuel ih =>
    intro cur e cal h
    by_cases hc : cur < e
    · have hdle : cur / usPerDay ≤ e / usPerDay := Nat.div_le_div_right hc.le
      have hcount : e / usPerDay + 1 - cur / usPerDay
          = (e / usPerDay - cur / usPerDay) + 1 := by omega
      rw [show bizLoop (fuel + 1) cur e cal
          = dayOverlap cur e cal
            + bizLoop fuel ((cur / usPerDay + 1) * usPerDay) e cal by
        simp [bizLoop, hc]]
      rw [hcount, walkSum_succ, dayOverlap_eq_ovd]
      congr 1
      rw [ih ((cur / usPerDay + 1) * usPerDay) e cal
        (by rw [next_midnight_div]; omega)]
      rw [next_midnight_div]
      have hcount2 : e / usPerDay + 1 - (cur / usPerDay + 1)
          = e / usPerDay - cur / usPerDay := by omega
      rw [hcount2]
      apply walkSum_congr
      intro k _
      apply ovd_congr_lo
      · calc (cur / usPerDay + 1) * usPerDay
            ≤ (cur / usPerDay + 1 + k) * usPerDay :=
              Nat.mul_le_mul_right _ (by omega)
          _ = _ := rfl
      · exact le_trans (lt_next_midnight cur).le
          (Nat.mul_le_mul_right _ (by omega))
    · rw [show bizLoop (fuel + 1) cur e cal = 0 by simp [bizLoop, hc]]
      symm
      apply walkSum_eq_zero
      intro k _
      exact ovd_eq_zero_of_le (by omega) _ _

/-- `_calculate_business_seconds_between` on a non-degenerate span is the
truncated walk-sum of per-day overlaps. -/
theorem calc_between_eq_walkSum {s e : Nat} (cal : Cal) (h : s < e) :
    calculate_business_seconds_between s e cal =
      walkSum (s / usPerDay) (e / usPerDay + 1 - s / usPerDay)
        (fun d => ovd s e d cal) / usPerSec := by
  unfold calculate_business_seconds_between
  rw [if_neg (by omega)]
  rw [bizLoop_eq_walkSum]
  have : s / usPerDay ≤ e / usPerDay := Nat.div_le_div_right h.le
  omega

/-- Splitting a span at an interior point splits each day's overlap: the
overlap of `[a, c]` with a day's business interval is the sum of the
overlaps of `[a, b]` and `[b, c]`, for any `a ≤ b ≤ c`. -/
theorem ovd_split {a b c : Nat} (hab : a ≤ b) (hbc : b ≤ c) (d : Nat)
    (cal : Cal) : ovd a c d cal = ovd a b d cal + ovd b c d cal := by
  unfold ovd
  cases hc : cal (d % 7) with
  | none => rfl
  | some p =>
    cases p with
    | mk o cl =>
      simp only
      split_ifs <;> omega

theorem usPerSec_dvd_usPerDay : usPerSec ∣ usPerDay := by
  norm_num [usPerSec, usPerDay]

/-- Each day's overlap is a whole number of seconds when the span endpoints
and the calendar's times all are. -/
theorem dvd_ovd {cal : Cal}
    (hdvd : ∀ w, w < 7 → ∀ o c, cal w = some (o, c) →
      usPerSec ∣ o ∧ usPerSec ∣ c)
    {lo e : Nat} (hlo : usPerSec ∣ lo) (he : usPerSec ∣ e) (d : Nat) :
    usPerSec ∣ ovd lo e d cal := by
  unfold ovd
  cases hc : cal (d % 7) with
  | none => exact dvd_zero _
  | some p =>
    cases p with
    | mk o c =>
      obtain ⟨ho, hcd⟩ := hdvd (d % 7) (Nat.mod_lt _ (by norm_num)) o c hc
      simp only [usPerSec, usPerDay] at *
      split_ifs <;> omega

/-- Additivity of the walk-sum of overlaps at an interior split point, for
a calendar with no wrapping interval. -/
theorem walkSum_ovd_add {cal : Cal}
    (hcal : ∀ w, w < 7 → ∀ o c, cal w = some (o, c) → o ≤ c ∧ c < usPerDay)
    {a b c : Nat} (hab : a ≤ b) (hbc : b ≤ c) :
    walkSum (a / usPerDay) (b / usPerDay + 1 - a / usPerDay)
        (fun d => ovd a b d cal)
      + walkSum (b / usPerDay) (c / usPerDay + 1 - b / usPerDay)
        (fun d => ovd b c d cal)
      = walkSum (a / usPerDay) (c / usPerDay + 1 - a / usPerDay)
        (fun d => ovd a c d cal) := by
  have hdab : a / usPerDay ≤ b / usPerDay := Nat.div_le_div_right hab
  have hdbc : b / usPerDay ≤ c / usPerDay := Nat.div_le_div_right hbc
  have hsplit : walkSum (a / usPerDay) (c / usPerDay + 1 - a / usPerDay)
      (fun d => ovd a c d cal)
      = walkSum (a / usPerDay) (c / usPerDay + 1 - a / usPerDay)
        (fun d => ovd a b d cal)
      + walkSum (a / usPerDay) (c / usPerDay + 1 - a / usPerDay)
        (fun d => ovd b c d cal) := by
    rw [← walkSum_add_distrib]
    exact walkSum_congr fun k _ => ovd_split hab hbc _ cal
  rw [hsplit]
  congr 1
  · -- days after `b`'s day contribute nothing to the `[a, b]` overlap
    have hm : c / usPerDay + 1 - a / usPerDay
        = (b / usPerDay + 1 - a / usPerDay) + (c / usPerDay - b / usPerDay) := by
      omega
    rw [hm, walkSum_split]
    have hz : walkSum (a / usPerDay + (b / usPerDay + 1 - a / usPerDay))
        (c / usPerDay - b / usPerDay) (fun d => ovd a b d cal) = 0 := by
      apply walkSum_eq_zero
      intro k _
      apply ovd_eq_zero_of_end_le _ _ cal
      have h1 : b < (b / usPerDay + 1) * usPerDay := lt_next_midnight b
      calc b ≤ (b / usPerDay + 1) * usPerDay := h1.le
        _ ≤ (a / usPerDay + (b / usPerDay + 1 - a / usPerDay) + k) * usPerDay :=
          Nat.mul_le_mul_right _ (by omega)
    rw [hz]
    omega
  · -- days strictly before `b`'s day contribute nothing to the `[b, c]`
    -- overlap under a no-wrap calendar
    have hm : c / usPerDay + 1 - a / usPerDay
        = (b / usPerDay - a / usPerDay) + (c / usPerDay + 1 - b / usPerDay) := by
      omega
    rw [hm, walkSum_split]
    have hz : walkSum (a / usPerDay) (b / usPerDay - a / usPerDay)
        (fun d => ovd b c d cal) = 0 := by
      apply walkSum_eq_zero
      intro k hk
      apply ovd_eq_zero_of_nowrap_lt hcal _ c
      have h1 : b / usPerDay * usPerDay ≤ b := Nat.div_mul_le_self b usPerDay
      calc (a / usPerDay + k + 1) * usPerDay
          ≤ b / usPerDay * usPerDay := Nat.mul_le_mul_right _ (by omega)
        _ ≤ b := h1
    rw [hz, Nat.zero_add]
    congr 1
    omega

/-- Additivity of `_calculate_business_seconds_between` at an interior
split point, for a no-wrap calendar and whole-second inputs. -/
theorem calc_between_add {cal : Cal}
    (hcal : ∀ w, w < 7 → ∀ o c, cal w = some (o, c) →
      o ≤ c ∧ c < usPerDay ∧ usPerSec ∣ o ∧ usPerSec ∣ c)
    {a b c : Nat} (ha : usPerSec ∣ a) (hb : usPerSec ∣ b) (hc2 : usPerSec ∣ c)
    (hab : a ≤ b) (hbc : b ≤ c) :
    calculate_business_seconds_between a b cal
      + calculate_business_seconds_between b c cal
      = calculate_business_seconds_between a c cal := by
  have hcal1 : ∀ w, w < 7 → ∀ o c, cal w = some (o, c) →
      o ≤ c ∧ c < usPerDay :=
    fun w hw o c h => ⟨(hcal w hw o c h).1, (hcal w hw o c h).2.1⟩
  have hdvd : ∀ w, w < 7 → ∀ o c, cal w = some (o, c) →
      usPerSec ∣ o ∧ usPerSec ∣ c :=
    fun w hw o c h => (hcal w hw o c h).2.2
  rcases eq_or_lt_of_le hab with rfl | hab'
  · rw [show calculate_business_seconds_between a a cal = 0 by
      simp [calculate_business_seconds_between]]
    rw [Nat.zero_add]
  rcases eq_or_lt_of_le hbc with rfl | hbc'
  · rw [show calculate_business_seconds_between b b cal = 0 by
      simp [calculate_business_seconds_between]]
    rw [Nat.add_zero]
  rw [calc_between_eq_walkSum cal hab', calc_between_eq_walkSum cal hbc',
    calc_between_eq_walkSum cal (lt_trans hab' hbc')]
  have hdx : usPerSec ∣ walkSum (a / usPerDay)
      (b / usPerDay + 1 - a / usPerDay) (fun d => ovd a b d cal) :=
    dvd_walkSum fun k _ => dvd_ovd hdvd ha hb _
  rw [← Nat.add_div_of_dvd_right hdx]
  congr 1
  exact walkSum_ovd_add hcal1 hab'.le hbc'.le

theorem walkSum_const (d0 n c : Nat) : walkSum d0 n (fun _ => c) = n * c := by
  induction n generalizing d0 with
  | zero => rw [walkSum_zero, Nat.zero_mul]
  | succ n ih =>
    rw [walkSum_succ, ih]
    ring

/-- In a `≤`-chain running from `x` through a list to `y`, `x ≤ y`. -/
theorem chain_le_head_last :
    ∀ (l : List Nat) (x y : Nat),
      List.Chain' (· ≤ ·) (x :: l ++ [y]) → x ≤ y := by
  intro l
  induction l with
  | nil =>
    intro x y h
    exact (List.chain'_cons.mp h).1
  | cons a l ih =>
    intro x y h
    simp only [List.cons_append, List.chain'_cons] at h
    refine le_trans h.1 (ih a y ?_)
    simp only [List.cons_append]
    exact h.2

/-- The loop-plus-trailing part of the interpolator conserves business
seconds: uptime + downtime over the gaps from `prev` to `le` equals the
business seconds of `[prev.1, le]`, for a no-wrap, whole-second calendar
and whole-second, sorted timestamps. -/
theorem interpGo_total {cal : Cal}
    (hcal : ∀ w, w < 7 → ∀ o c, cal w = some (o, c) →
      o ≤ c ∧ c < usPerDay ∧ usPerSec ∣ o ∧ usPerSec ∣ c)
    {le : Nat} (hle : usPerSec ∣ le) :
    ∀ (rest : List (Nat × Bool)) (prev : Nat × Bool),
      usPerSec ∣ prev.1 →
      (∀ p ∈ rest, usPerSec ∣ p.1) →
      List.Chain' (· ≤ ·) (prev.1 :: rest.map Prod.fst ++ [le]) →
      (interpGo prev rest le cal).1 + (interpGo prev rest le cal).2
        = calculate_business_seconds_between prev.1 le cal := by
  intro rest
  induction rest with
  | nil =>
    intro prev _ _ _
    cases hb : prev.2 <;> simp [interpGo, hb]
  | cons o tl ih =>
    intro prev hp hrest hchain
    simp only [List.map_cons, List.cons_append, List.chain'_cons] at hchain
    have h1 : prev.1 ≤ o.1 := hchain.1
    have hchain' : List.Chain' (· ≤ ·) (o.1 :: tl.map Prod.fst ++ [le]) := by
      simp only [List.cons_append]
      exact hchain.2
    have h2 : o.1 ≤ le := chain_le_head_last _ _ _ hchain'
    have ho1 : usPerSec ∣ o.1 := hrest o (List.mem_cons_self o tl)
    have key := calc_between_add hcal hp ho1 hle h1 h2
    have ihr := ih o ho1 (fun p hp' => hrest p (List.mem_cons_of_mem _ hp'))
      hchain'
    cases hb : prev.2 <;> simp [interpGo, hb] <;> omega

/-- C1 (amended): for a calendar with no wrapping interval whose times are
whole seconds, and whole-second span endpoints and observation timestamps
sorted chronologically within the span, the interpolator's output (and the
zero-observation branch of `_calculate_period_metrics`) has non-negative
uptime and downtime summing exactly to
`_calculate_business_seconds_between(localStart, localEnd)`.  (The
original claim, quantified over every calendar and every filtered
observation sequence, is refuted by `spec_c1_cex`.) -/
theorem spec_c1 (obs : List (Nat × Bool)) (ls le : Nat) (cal : Cal)
    (hcal : ∀ w, w < 7 → ∀ o c, cal w = some (o, c) →
      o ≤ c ∧ c < usPerDay ∧ usPerSec ∣ o ∧ usPerSec ∣ c)
    (hls : usPerSec ∣ ls) (hle : usPerSec ∣ le)
    (hobs : ∀ p ∈ obs, usPerSec ∣ p.1)
    (hchain : List.Chain' (· ≤ ·) (ls :: obs.map Prod.fst ++ [le])) :
    0 ≤ (calculate_period_metrics obs ls le cal).1 ∧
    0 ≤ (calculate_period_metrics obs ls le cal).2 ∧
    (calculate_period_metrics obs ls le cal).1
        + (calculate_period_metrics obs ls le cal).2
      = calculate_business_seconds_between ls le cal := by
  refine ⟨Nat.zero_le _, Nat.zero_le _, ?_⟩
  unfold calculate_period_metrics
  cases obs with
  | nil => simp
  | cons o tl =>
    rw [if_neg (by simp)]
    simp only [List.map_cons, List.cons_append, List.chain'_cons] at hchain
    have h1 : ls ≤ o.1 := hchain.1
    have hchain' : List.Chain' (· ≤ ·) (o.1 :: tl.map Prod.fst ++ [le]) := by
      simp only [List.cons_append]
      exact hchain.2
    have h2 : o.1 ≤ le := chain_le_head_last _ _ _ hchain'
    have ho1 : usPerSec ∣ o.1 := hobs o (List.mem_cons_self o tl)
    have key := calc_between_add hcal hls ho1 hle h1 h2
    cases tl with
    | nil =>
      cases hb : o.2 <;> simp [interpolate_uptime_downtime, hb] <;> omega
    | cons o2 tl2 =>
      have itot := interpGo_total hcal hle (o2 :: tl2) o ho1
        (fun p hp' => hobs p (List.mem_cons_of_mem _ hp')) hchain'
      cases hb : o.2 <;> simp [interpolate_uptime_downtime, hb] <;> omega

/-- Witness for `spec_c1` at a concrete no-wrap (24/7 default) calendar
with two whole-second observations inside a one-day span. -/
theorem spec_c1_witness :
    (calculate_period_metrics [(3600000000, true), (7200000000, false)]
        0 usPerDay defaultCal).1
      + (calculate_period_metrics [(3600000000, true), (7200000000, false)]
        0 usPerDay defaultCal).2
      = calculate_business_seconds_between 0 usPerDay defaultCal := by
  refine (spec_c1 [(3600000000, true), (7200000000, false)] 0 usPerDay
    defaultCal ?_ ?_ ?_ ?_ ?_).2.2
  · intro w hw o c h
    unfold defaultCal at h
    rw [if_pos hw] at h
    simp only [Option.some.injEq, Prod.mk.injEq] at h
    obtain ⟨rfl, rfl⟩ := h
    norm_num [usPerDay, usPerSec]
  · exact dvd_zero _
  · exact usPerSec_dvd_usPerDay
  · intro p hp
    simp only [List.mem_cons, List.mem_singleton, List.not_mem_nil,
      or_false] at hp
    rcases hp with rfl | rfl <;> norm_num [usPerSec]
  · norm_num [List.chain'_cons, List.chain'_singleton, usPerDay]

/-- C1 counterexample: the claim fails as stated.  (1) With the wrapping
calendar Monday 22:00–06:00, the single business-hours-filtered
observation Tuesday 03:00 (inside the overnight carry-over) makes the
interpolator report 18000 uptime seconds and 0 downtime, while the span's
business seconds are 28800 — the 03:00–06:00 carry-over is lost.  (2) With
the no-wrap 24/7 default calendar, a single observation at 00:00:00.500000
loses one second to per-gap truncation: 86398 ≠ 86399. -/
theorem spec_c1_cex :
    (is_within_business_hours_enhanced 97200000000 calMonWrap = true ∧
     (calculate_period_metrics [(97200000000, true)] 0 (2 * usPerDay)
        calMonWrap).1
       + (calculate_period_metrics [(97200000000, true)] 0 (2 * usPerDay)
        calMonWrap).2 = 18000 ∧
     calculate_business_seconds_between 0 (2 * usPerDay) calMonWrap
       = 28800) ∧
    (is_within_business_hours_enhanced 500000 defaultCal = true ∧
     (calculate_period_metrics [(500000, true)] 0 usPerDay defaultCal).1
       + (calculate_period_metrics [(500000, true)] 0 usPerDay
        defaultCal).2 = 86398 ∧
     calculate_business_seconds_between 0 usPerDay defaultCal = 86399) := by
  decide

/-- C9: `_calculate_business_seconds_between` returns 0 whenever
`localStart >= localEnd` (including equality), and its result is always a
non-negative count of seconds. -/
theorem spec_c9 : ∀ (s e : Nat) (cal : Cal),
    (e ≤ s → calculate_business_seconds_between s e cal = 0) ∧
    0 ≤ calculate_business_seconds_between s e cal := by
  intro s e cal
  exact ⟨fun h => by simp [calculate_business_seconds_between, h],
    Nat.zero_le _⟩

/-- Witness for `spec_c9` on a concrete reversed span. -/
theorem spec_c9_witness :
    calculate_business_seconds_between (2 * usPerDay) usPerDay defaultCal
      = 0 ∧
    0 ≤ calculate_business_seconds_between (2 * usPerDay) usPerDay
      defaultCal :=
  ⟨(spec_c9 (2 * usPerDay) usPerDay defaultCal).1
      (by norm_num [usPerDay]),
   (spec_c9 (2 * usPerDay) usPerDay defaultCal).2⟩

/-- The interpolator's loop-plus-trailing part computes exactly the per-gap
sums over the spec's forward-fill gap list. -/
theorem interpGo_eq_gaps (le : Nat) (cal : Cal) :
    ∀ (rest : List (Nat × Bool)) (prev : Nat × Bool),
      interpGo prev rest le cal
        = ((((forwardFillAux le prev rest).filter (fun g => g.2.2 = true)).map
            (fun g => calculate_business_seconds_between g.1 g.2.1 cal)).sum,
           (((forwardFillAux le prev rest).filter
              (fun g => g.2.2 = false)).map
            (fun g => calculate_business_seconds_between g.1 g.2.1 cal)).sum)
      := by
  intro rest
  induction rest with
  | nil =>
    intro prev
    cases hb : prev.2 <;> simp [interpGo, forwardFillAux, hb]
  | cons o tl ih =>
    intro prev
    cases hb : prev.2 <;>
      simp [interpGo, forwardFillAux, hb, ih o, Prod.ext_iff] <;> omega

/-- C3: the interpolator (together with the zero-observation branch of
`_calculate_period_metrics`) implements exactly the spec's forward-fill
attribution: empty sequence → all downtime; the leading gap takes the
first observation's state, each inner gap the earlier observation's state,
the trailing gap the last observation's state, each gap weighted by its
business seconds. -/
theorem spec_c3 : ∀ (obs : List (Nat × Bool)) (ls le : Nat) (cal : Cal),
    calculate_period_metrics obs ls le cal
      = spec_period_metrics obs ls le cal := by
  intro obs ls le cal
  unfold calculate_period_metrics spec_period_metrics
  cases obs with
  | nil => simp
  | cons o tl =>
    rw [if_neg (by simp), if_neg (by simp)]
    unfold forwardFillGaps
    cases tl with
    | nil =>
      cases hb : o.2 <;>
        simp [interpolate_uptime_downtime, forwardFillAux, hb,
          Prod.ext_iff]
    | cons o2 tl2 =>
      cases hb : o.2 <;>
        simp [interpolate_uptime_downtime, interpGo_eq_gaps, hb,
          Prod.ext_iff] <;> omega

/-- `map`-then-`sum` distributes over `flatMap` blockwise. -/
theorem sum_map_flatMap {α β : Type} (l : List α) (f : α → List β)
    (g : β → Nat) :
    ((l.flatMap f).map g).sum
      = (l.map (fun a => ((f a).map g).sum)).sum := by
  induction l with
  | nil => rfl
  | cons a l ih =>
    simp [List.flatMap_cons, List.map_append, List.sum_append, ih]

theorem walkSum_of_map (d0 n : Nat) (F : Nat → Nat) :
    (((List.range n).map (fun k => d0 + k)).map F).sum = walkSum d0 n F := by
  rw [List.map_map]
  rfl

/-- For a no-wrap day, the emitted clipped interval's truncated duration is
the truncated per-day overlap. -/
theorem dayIntervals_sum_eq_ovd {cal : Cal}
    (hnw : ∀ w, w < 7 → ∀ o c, cal w = some (o, c) → o ≤ c)
    (d s e : Nat) :
    ((dayIntervals d s e cal).map (fun p => (p.2 - p.1) / usPerSec)).sum
      = ovd s e d cal / usPerSec := by
  unfold dayIntervals ovd
  cases hc : cal (d % 7) with
  | none => simp
  | some p =>
    cases p with
    | mk o c =>
      have hoc : o ≤ c := hnw (d % 7) (Nat.mod_lt _ (by norm_num)) o c hc
      simp only
      rw [if_pos hoc]
      have hite : (if c < o then usPerDay else 0) = 0 := if_neg (by omega)
      rw [hite, Nat.add_zero]
      split_ifs with h
      · simp only [List.map_cons, List.map_nil, List.sum_cons, List.sum_nil,
          Nat.add_zero]
        rw [show min (d * usPerDay + c) e - max (d * usPerDay + o) s
            = min e (d * usPerDay + c) - max s (d * usPerDay + o) from
          by omega]
      · simp only [List.map_nil, List.sum_nil]
        rw [show min e (d * usPerDay + c) - max s (d * usPerDay + o) = 0 from
          by omega, Nat.zero_div]

/-- C2 (amended): the day-walk `_calculate_business_seconds_between` agrees
with the interval-based `calculate_total_business_seconds_precise` on
every span, provided the calendar has no wrapping interval and the span
endpoints and calendar times are whole seconds.  (The original claim, in
particular its "including wrapping calendars" part, is refuted by
`spec_c2_cex`: the wrap path loses the final microsecond of each wrapped
day to the `23:59:59.999999` cap, which truncation turns into a whole lost
second.) -/
theorem spec_c2 (s e : Nat) (cal : Cal)
    (hcal : ∀ w, w < 7 → ∀ o c, cal w = some (o, c) →
      o ≤ c ∧ c < usPerDay ∧ usPerSec ∣ o ∧ usPerSec ∣ c)
    (hs : usPerSec ∣ s) (he : usPerSec ∣ e) :
    calculate_business_seconds_between s e cal
      = calculate_total_business_seconds_precise s e cal := by
  by_cases hse : e ≤ s
  · unfold calculate_business_seconds_between
      calculate_total_business_seconds_precise
    rw [if_pos hse, if_pos hse]
  · have hlt : s < e := by omega
    rw [calc_between_eq_walkSum cal hlt]
    unfold calculate_total_business_seconds_precise
      get_business_hours_intervals
    rw [if_neg hse, sum_map_flatMap, walkSum_of_map]
    have h1 : walkSum (s / usPerDay) (e / usPerDay + 1 - s / usPerDay)
        (fun d => ((dayIntervals d s e cal).map
          (fun p => (p.2 - p.1) / usPerSec)).sum)
        = walkSum (s / usPerDay) (e / usPerDay + 1 - s / usPerDay)
          (fun d => ovd s e d cal / usPerSec) :=
      walkSum_congr fun k _ => dayIntervals_sum_eq_ovd
        (fun w hw o c h => (hcal w hw o c h).1) _ s e
    rw [h1, walkSum_div fun k _ => dvd_ovd
      (fun w hw o c h => (hcal w hw o c h).2.2) hs he _]

/-- Witness for `spec_c2` on the 24/7 default calendar over one day. -/
theorem spec_c2_witness :
    calculate_business_seconds_between 0 usPerDay defaultCal
      = calculate_total_business_seconds_precise 0 usPerDay defaultCal := by
  refine spec_c2 0 usPerDay defaultCal ?_ (dvd_zero _) usPerSec_dvd_usPerDay
  intro w hw o c h
  unfold defaultCal at h
  rw [if_pos hw] at h
  simp only [Option.some.injEq, Prod.mk.injEq] at h
  obtain ⟨rfl, rfl⟩ := h
  norm_num [usPerDay, usPerSec]

/-- C2 counterexample: on the wrapping calendar Monday 22:00–06:00 over the
span Monday 00:00 – Wednesday 00:00, the day-walk counts 28800 seconds but
the interval-based path counts 28799 (the before-midnight piece is capped
at 23:59:59.999999 and truncates to 7199 seconds). -/
theorem spec_c2_cex :
    calculate_business_seconds_between 0 (2 * usPerDay) calMonWrap = 28800 ∧
    calculate_total_business_seconds_precise 0 (2 * usPerDay) calMonWrap
      = 28799 := by
  decide

theorem defaultCal_lookup (w : Nat) :
    defaultCal (w % 7) = some (0, 86399000000) := by
  unfold defaultCal
  rw [if_pos (Nat.mod_lt _ (by norm_num))]

/-- Under the 24/7 default calendar, a span of `n` whole civil days counts
`n * 86399` business seconds. -/
theorem c10_full_days (d0 n : Nat) :
    calculate_business_seconds_between (d0 * usPerDay)
      ((d0 + n) * usPerDay) defaultCal = n * 86399 := by
  cases n with
  | zero =>
    rw [Nat.add_zero]
    simp [calculate_business_seconds_between]
  | succ n =>
    have hexp : (d0 + (n + 1)) * usPerDay
        = d0 * usPerDay + (n + 1) * usPerDay := by ring
    have hpos : 0 < (n + 1) * usPerDay :=
      Nat.mul_pos (Nat.succ_pos n) usPerDay_pos
    have hlt : d0 * usPerDay < (d0 + (n + 1)) * usPerDay := by omega
    rw [calc_between_eq_walkSum defaultCal hlt]
    rw [Nat.mul_div_cancel _ usPerDay_pos, Nat.mul_div_cancel _ usPerDay_pos]
    rw [show d0 + (n + 1) + 1 - d0 = (n + 1) + 1 from by omega]
    rw [walkSum_split d0 (n + 1) 1]
    have hconst : walkSum d0 (n + 1)
        (fun d => ovd (d0 * usPerDay) ((d0 + (n + 1)) * usPerDay) d
          defaultCal)
        = walkSum d0 (n + 1) (fun _ => 86399000000) := by
      apply walkSum_congr
      intro k hk
      rw [ovd_of_some (defaultCal_lookup (d0 + k))]
      rw [show (if (86399000000 : Nat) < 0 then usPerDay else 0) = 0 from
        if_neg (by omega)]
      have e1 : (d0 + k) * usPerDay = d0 * usPerDay + k * usPerDay := by ring
      have e3 : (k + 1) * usPerDay = k * usPerDay + usPerDay := by ring
      have e4 : (k + 1) * usPerDay ≤ (n + 1) * usPerDay :=
        Nat.mul_le_mul_right _ (by omega)
      have e5 : (86399000000 : Nat) < usPerDay := by norm_num [usPerDay]
      rw [min_eq_right (by omega), max_eq_right (by omega)]
      omega
    rw [hconst, walkSum_const, walkSum_one]
    rw [ovd_eq_zero_of_end_le (le_refl ((d0 + (n + 1)) * usPerDay)) _ _,
      Nat.add_zero]
    rw [show (86399000000 : Nat) = 86399 * usPerSec from by
      norm_num [usPerSec]]
    rw [show (n + 1) * (86399 * usPerSec) = ((n + 1) * 86399) * usPerSec from
      by ring]
    rw [Nat.mul_div_cancel _ (by norm_num [usPerSec])]

/-- Under the 24/7 default calendar, the final second of each civil day —
from 23:59:59 to midnight — counts as closed time. -/
theorem c10_final_second (d : Nat) :
    calculate_business_seconds_between (d * usPerDay + 86399000000)
      ((d + 1) * usPerDay) defaultCal = 0 := by
  have hexp : (d + 1) * usPerDay = d * usPerDay + usPerDay := by ring
  have hlt : d * usPerDay + 86399000000 < (d + 1) * usPerDay := by
    rw [hexp]
    have : (86399000000 : Nat) < usPerDay := by norm_num [usPerDay]
    omega
  rw [calc_between_eq_walkSum defaultCal hlt]
  have hsd : (d * usPerDay + 86399000000) / usPerDay = d := by
    rw [show d * usPerDay + 86399000000 = 86399000000 + usPerDay * d from
      by ring]
    rw [Nat.add_mul_div_left _ _ usPerDay_pos]
    rw [Nat.div_eq_of_lt (by norm_num [usPerDay]), Nat.zero_add]
  rw [hsd, Nat.mul_div_cancel _ usPerDay_pos,
    show d + 1 + 1 - d = 1 + 1 from by omega]
  rw [walkSum_split d 1 1, walkSum_one, walkSum_one]
  have hone : ovd (d * usPerDay + 86399000000) ((d + 1) * usPerDay) d
      defaultCal = 0 := by
    rw [ovd_of_some (defaultCal_lookup d)]
    rw [show (if (86399000000 : Nat) < 0 then usPerDay else 0) = 0 from
      if_neg (by omega)]
    have e5 : (86399000000 : Nat) < usPerDay := by norm_num [usPerDay]
    rw [min_eq_right (by omega), max_eq_left (by omega)]
    omega
  have htwo : ovd (d * usPerDay + 86399000000) ((d + 1) * usPerDay) (d + 1)
      defaultCal = 0 :=
    ovd_eq_zero_of_end_le (le_refl ((d + 1) * usPerDay)) _ _
  rw [hone, htwo]
  norm_num

/-- C10: a store with no configured business-hours rows gets the default
calendar mapping every weekday to `(00:00:00, 23:59:59)`; under it the
day-walk counts exactly `86399` seconds per full civil day (never 86400),
the final second of each day (23:59:59 to midnight) being closed time. -/
theorem spec_c10 :
    get_business_hours [] = defaultCal ∧
    (∀ d0 n : Nat, calculate_business_seconds_between (d0 * usPerDay)
        ((d0 + n) * usPerDay) defaultCal = n * 86399) ∧
    (∀ d : Nat, calculate_business_seconds_between
        (d * usPerDay + 86399000000) ((d + 1) * usPerDay) defaultCal = 0) :=
  ⟨by simp [get_business_hours], c10_full_days, c10_final_second⟩

theorem ite_bool_true {b : Bool} {p : Prop} [Decidable p] :
    (if b = true then true else decide p) = true ↔ b = true ∨ p := by
  cases b <;> simp

theorem ite_bool_false {b : Bool} :
    (if b = true then true else false) = true ↔ b = true := by
  cases b <;> simp

theorem exists_pair_eq {P : Nat → Nat → Prop} (a b : Nat) :
    (∃ x y, (a = x ∧ b = y) ∧ P x y) ↔ P a b := by
  constructor
  · rintro ⟨x, y, ⟨rfl, rfl⟩, h⟩
    exact h
  · intro h
    exact ⟨a, b, ⟨rfl, rfl⟩, h⟩

/-- The open/closed test agrees with the spec's `isOpen` wording for every
instant and calendar. -/
theorem c4_iff (t : Nat) (cal : Cal) :
    is_within_business_hours_enhanced t cal = true ↔ isOpenSpec t cal := by
  dsimp only [is_within_business_hours_enhanced, isOpenSpec]
  cases h1 : cal (t / usPerDay % 7) with
  | none =>
    cases h2 : cal ((t / usPerDay % 7 + 6) % 7) with
    | none => simp
    | some p =>
      cases p with
      | mk po pc =>
        rw [ite_bool_true]
        simp [decide_eq_true_eq, exists_pair_eq]
  | some p =>
    cases p with
    | mk o c =>
      cases h2 : cal ((t / usPerDay % 7 + 6) % 7) with
      | none =>
        rw [ite_bool_false]
        dsimp only
        split_ifs with ho <;>
          simp [decide_eq_true_eq, exists_pair_eq, ho]
        omega
      | some q =>
        cases q with
        | mk po pc =>
          rw [ite_bool_true]
          dsimp only
          split_ifs with ho <;>
            simp [decide_eq_true_eq, exists_pair_eq, ho] <;> omega

/-- C4: `is_within_business_hours_enhanced` returns true exactly under the
spec's condition (today's normal interval inclusive, today's wrapping
interval, or the previous weekday's wrapping carry-over); in particular,
for the Monday 22:00–06:00 wrap calendar, Monday 23:30 and Tuesday 03:30
are open and Tuesday 08:30 is closed. -/
theorem spec_c4 :
    (∀ (t : Nat) (cal : Cal),
        is_within_business_hours_enhanced t cal = true ↔ isOpenSpec t cal) ∧
    is_within_business_hours_enhanced 84600000000 calMonWrap = true ∧
    is_within_business_hours_enhanced 99000000000 calMonWrap = true ∧
    is_within_business_hours_enhanced 117000000000 calMonWrap = false :=
  ⟨c4_iff, by decide, by decide, by decide⟩

/-- C6: the per-store loop never aborts — it yields exactly one row per
store; a store whose metrics computation raises contributes the all-zero
row, and every other store's row is exactly its computed result
(processing continues past failures). -/
theorem spec_c6 : ∀ (ids : List Nat) (compute : Nat → Except Unit Row),
    (process_stores ids compute).length = ids.length ∧
    ∀ (i : Nat) (sid : Nat), ids[i]? = some sid →
      (compute sid = .error () →
        (process_stores ids compute)[i]? = some (zeroRow sid)) ∧
      (∀ r, compute sid = .ok r →
        (process_stores ids compute)[i]? = some r) := by
  intro ids compute
  constructor
  · simp [process_stores]
  · intro i sid hi
    constructor
    · intro herr
      rw [process_stores, List.getElem?_map, hi]
      simp [herr]
    · intro r hok
      rw [process_stores, List.getElem?_map, hi]
      simp [hok]

/-- Witness for `spec_c6`: a two-store run where the first store's
computation fails and the second succeeds. -/
theorem spec_c6_witness :
    (process_stores [1, 2]
        (fun sid => if sid = 1 then .error () else .ok (zeroRow 7))).length
      = 2 ∧
    (process_stores [1, 2]
        (fun sid => if sid = 1 then .error () else .ok (zeroRow 7)))[0]?
      = some (zeroRow 1) ∧
    (process_stores [1, 2]
        (fun sid => if sid = 1 then .error () else .ok (zeroRow 7)))[1]?
      = some (zeroRow 7) := by
  have h := spec_c6 [1, 2]
    (fun sid => if sid = 1 then .error () else .ok (zeroRow 7))
  refine ⟨h.1, (h.2 0 1 rfl).1 rfl, (h.2 1 2 rfl).2 (zeroRow 7) rfl⟩

/-- C7: a job's committed status trace is `Running` at creation followed by
at most one terminal transition — either to `Complete` (with `completed_at`
and `file_path` recorded) or to `Failed` — and nothing after a terminal
state. -/
theorem spec_c7 : ∀ (o : Oracles) (now : Nat),
    trigger_report o now = [⟨.running, none, none⟩] ∨
    (∃ p, trigger_report o now
      = [⟨.running, none, none⟩, ⟨.complete, some now, some p⟩]) ∨
    trigger_report o now
      = [⟨.running, none, none⟩, ⟨.failed, none, none⟩] := by
  intro o now
  unfold trigger_report generate_report_async failTransition
  cases hm : o.maxTs with
  | error e => cases hf : o.commitFailed <;> simp [hm, hf]
  | ok v =>
    cases hs : o.storeIds with
    | error e => cases hf : o.commitFailed <;> simp [hm, hs, hf]
    | ok ids =>
      cases hex : o.exportCsv (process_stores ids o.compute) with
      | error e => cases hf : o.commitFailed <;> simp [hm, hs, hex, hf]
      | ok path =>
        cases hcc : o.commitComplete with
        | ok u => simp [hm, hs, hex, hcc]
        | error e => cases hf : o.commitFailed <;> simp [hm, hs, hex, hcc, hf]

/-- C8: timezone resolution returns the input exactly when it is a
recognized zone and the fixed default otherwise (never failing), and the
safe conversion returns the resolved-zone conversion when it succeeds and
falls back to the original timestamp on any conversion error. -/
theorem spec_c8 : ∀ (valid : List String) (tz : String)
    (conv : String → Nat → Except Unit Nat) (t : Nat),
    (tz ∈ valid → validate_timezone valid tz = tz) ∧
    (tz ∉ valid → validate_timezone valid tz = "America/Chicago") ∧
    (∀ l, conv (validate_timezone valid tz) t = .ok l →
      convert_utc_to_local_safe valid conv t tz = l) ∧
    (conv (validate_timezone valid tz) t = .error () →
      convert_utc_to_local_safe valid conv t tz = t) := by
  intro valid tz conv t
  refine ⟨fun h => by simp [validate_timezone, h],
    fun h => by simp [validate_timezone, h], fun l h => ?_, fun h => ?_⟩
  · unfold convert_utc_to_local_safe
    rw [h]
  · unfold convert_utc_to_local_safe
    rw [h]

/-- Witness for `spec_c8` on a concrete zone list, a recognized and an
unrecognized zone, and both conversion outcomes. -/
theorem spec_c8_witness :
    validate_timezone ["UTC"] "UTC" = "UTC" ∧
    validate_timezone ["UTC"] "Mars/Olympus" = "America/Chicago" ∧
    convert_utc_to_local_safe ["UTC"] (fun _ x => .ok (x + 5)) 41 "UTC"
      = 46 ∧
    convert_utc_to_local_safe ["UTC"] (fun _ _ => .error ()) 41 "UTC"
      = 41 := by
  refine ⟨(spec_c8 ["UTC"] "UTC" (fun _ x => .ok (x + 5)) 41).1
      (by simp),
    (spec_c8 ["UTC"] "Mars/Olympus" (fun _ x => .ok (x + 5)) 41).2.1
      (by simp),
    (spec_c8 ["UTC"] "UTC" (fun _ x => .ok (x + 5)) 41).2.2.1 46 ?_,
    (spec_c8 ["UTC"] "UTC" (fun _ _ => .error ()) 41).2.2.2 rfl⟩
  rfl

theorem mem_dayIntervals {p : Nat × Nat} {d s e : Nat} {cal : Cal}
    (hp : p ∈ dayIntervals d s e cal) :
    s ≤ p.1 ∧ p.2 ≤ e ∧ p.1 < p.2 ∧ max (d * usPerDay) s ≤ p.1 := by
  have hx : (d + 1) * usPerDay = d * usPerDay + usPerDay := by ring
  unfold dayIntervals at hp
  cases hc : cal (d % 7) with
  | none =>
    rw [hc] at hp
    simp at hp
  | some q =>
    cases q with
    | mk o c =>
      rw [hc] at hp
      dsimp only at hp
      split_ifs at hp with h1 h2 h3 h4 h5 <;>
        simp [List.mem_append] at hp <;>
        first
          | (obtain rfl := hp; dsimp only; omega)
          | (rcases hp with rfl | rfl <;> dsimp only <;> omega)

theorem mem_dayIntervals_start_ub {p : Nat × Nat} {d s e : Nat} {cal : Cal}
    (htod : ∀ w, w < 7 → ∀ o c, cal w = some (o, c) →
      o < usPerDay ∧ c < usPerDay)
    (hp : p ∈ dayIntervals d s e cal) :
    p.1 ≤ max ((d + 1) * usPerDay) s := by
  have hx : (d + 1) * usPerDay = d * usPerDay + usPerDay := by ring
  unfold dayIntervals at hp
  cases hc : cal (d % 7) with
  | none =>
    rw [hc] at hp
    simp at hp
  | some q =>
    cases q with
    | mk o c =>
      obtain ⟨ho, hcu⟩ := htod (d % 7) (Nat.mod_lt _ (by norm_num)) o c hc
      rw [hc] at hp
      dsimp only at hp
      split_ifs at hp with h1 h2 h3 h4 h5 <;>
        simp [List.mem_append] at hp <;>
        first
          | (obtain rfl := hp; dsimp only; omega)
          | (rcases hp with rfl | rfl <;> dsimp only <;> omega)

theorem mem_dayIntervals_end_nowrap {p : Nat × Nat} {d s e : Nat} {cal : Cal}
    (hnw : ∀ w, w < 7 → ∀ o c, cal w = some (o, c) →
      o ≤ c ∧ c < usPerDay)
    (hp : p ∈ dayIntervals d s e cal) :
    p.2 < (d + 1) * usPerDay := by
  have hx : (d + 1) * usPerDay = d * usPerDay + usPerDay := by ring
  unfold dayIntervals at hp
  cases hc : cal (d % 7) with
  | none =>
    rw [hc] at hp
    simp at hp
  | some q =>
    cases q with
    | mk o c =>
      obtain ⟨hoc, hcu⟩ := hnw (d % 7) (Nat.mod_lt _ (by norm_num)) o c hc
      rw [hc] at hp
      dsimp only at hp
      rw [if_pos hoc] at hp
      by_cases h1 : max (d * usPerDay + o) s < min (d * usPerDay + c) e
      · rw [if_pos h1] at hp
        simp at hp
        obtain rfl := hp
        dsimp only
        omega
      · rw [if_neg h1] at hp
        simp at hp

theorem dayIntervals_pairwise_start {d s e : Nat} {cal : Cal}
    (htod : ∀ w, w < 7 → ∀ o c, cal w = some (o, c) →
      o < usPerDay ∧ c < usPerDay) :
    (dayIntervals d s e cal).Pairwise (fun p q => p.1 ≤ q.1) := by
  have hx : (d + 1) * usPerDay = d * usPerDay + usPerDay := by ring
  unfold dayIntervals
  cases hc : cal (d % 7) with
  | none => simp
  | some q =>
    cases q with
    | mk o c =>
      obtain ⟨ho, hcu⟩ := htod (d % 7) (Nat.mod_lt _ (by norm_num)) o c hc
      dsimp only
      split_ifs with h1 h2 h3 h4 h5 <;>
        simp [List.pairwise_append]
      omega

theorem dayIntervals_pairwise_disjoint {d s e : Nat} {cal : Cal}
    (hnw : ∀ w, w < 7 → ∀ o c, cal w = some (o, c) →
      o ≤ c ∧ c < usPerDay) :
    (dayIntervals d s e cal).Pairwise (fun p q => p.2 ≤ q.1) := by
  unfold dayIntervals
  cases hc : cal (d % 7) with
  | none => simp
  | some q =>
    cases q with
    | mk o c =>
      obtain ⟨hoc, hcu⟩ := hnw (d % 7) (Nat.mod_lt _ (by norm_num)) o c hc
      dsimp only
      rw [if_pos hoc]
      split_ifs with h1 <;> simp

theorem dayIntervals_length {d s e : Nat} {cal : Cal} :
    (dayIntervals d s e cal).length ≤ 2 ∧
    ((dayIntervals d s e cal).length = 2 →
      ∃ o c, cal (d % 7) = some (o, c) ∧ c < o) := by
  unfold dayIntervals
  cases hc : cal (d % 7) with
  | none => simp
  | some q =>
    cases q with
    | mk o c =>
      dsimp only
      split_ifs with h1 h2 h3 h4 h5 <;> simp
      exact ⟨o, c, ⟨rfl, rfl⟩, by omega⟩

/-- C5 (amended): for every query range and calendar with in-range times of
day, `get_business_hours_intervals` emits intervals each fully inside
`[localStart, localEnd]` and non-degenerate, in non-decreasing start order,
at most 2 per walked day and 2 only when that day's interval wraps; when no
interval wraps, the intervals are moreover pairwise non-overlapping.  (The
unconditional non-overlap of the original claim is refuted by
`spec_c5_cex`: a wrapped day's after-midnight piece can overlap the next
day's own interval.  Determinism is inherent: the function depends only on
its arguments.) -/
theorem spec_c5 (s e : Nat) (cal : Cal)
    (htod : ∀ w, w < 7 → ∀ o c, cal w = some (o, c) →
      o < usPerDay ∧ c < usPerDay) :
    (∀ p ∈ get_business_hours_intervals s e cal,
      s ≤ p.1 ∧ p.2 ≤ e ∧ p.1 < p.2) ∧
    (get_business_hours_intervals s e cal).Pairwise
      (fun p q => p.1 ≤ q.1) ∧
    (∀ d, (dayIntervals d s e cal).length ≤ 2 ∧
      ((dayIntervals d s e cal).length = 2 →
        ∃ o c, cal (d % 7) = some (o, c) ∧ c < o)) ∧
    ((∀ w, w < 7 → ∀ o c, cal w = some (o, c) → o ≤ c) →
      (get_business_hours_intervals s e cal).Pairwise
        (fun p q => p.2 ≤ q.1)) := by
  have hdl : ((List.range (e / usPerDay + 1 - s / usPerDay)).map
      (fun k => s / usPerDay + k)).Pairwise (· < ·) :=
    (List.pairwise_lt_range _).map _ (fun a b h => by omega)
  refine ⟨?_, ?_, fun d => dayIntervals_length, ?_⟩
  · intro p hp
    unfold get_business_hours_intervals at hp
    obtain ⟨d, _, hpd⟩ := List.mem_flatMap.mp hp
    have h := mem_dayIntervals hpd
    exact ⟨h.1, h.2.1, h.2.2.1⟩
  · unfold get_business_hours_intervals
    rw [List.pairwise_flatMap]
    refine ⟨fun d _ => dayIntervals_pairwise_start htod, hdl.imp ?_⟩
    intro d1 d2 h12 p hp q hq
    have h1 := mem_dayIntervals_start_ub htod hp
    have h2 := (mem_dayIntervals hq).2.2.2
    have h3 : (d1 + 1) * usPerDay ≤ d2 * usPerDay :=
      Nat.mul_le_mul_right _ (by omega)
    omega
  · intro hnw0
    have hnw : ∀ w, w < 7 → ∀ o c, cal w = some (o, c) →
        o ≤ c ∧ c < usPerDay :=
      fun w hw o c h => ⟨hnw0 w hw o c h, (htod w hw o c h).2⟩
    unfold get_business_hours_intervals
    rw [List.pairwise_flatMap]
    refine ⟨fun d _ => dayIntervals_pairwise_disjoint hnw, hdl.imp ?_⟩
    intro d1 d2 h12 p hp q hq
    have h1 := mem_dayIntervals_end_nowrap hnw hp
    have h2 := (mem_dayIntervals hq).2.2.2
    have h3 : (d1 + 1) * usPerDay ≤ d2 * usPerDay :=
      Nat.mul_le_mul_right _ (by omega)
    omega

/-- Witness for `spec_c5`: sortedness on a wrapping calendar, and pairwise
non-overlap on the no-wrap 24/7 default calendar. -/
theorem spec_c5_witness :
    (get_business_hours_intervals 0 (2 * usPerDay) calMonWrap).Pairwise
      (fun p q => p.1 ≤ q.1) ∧
    (get_business_hours_intervals 0 (2 * usPerDay) defaultCal).Pairwise
      (fun p q => p.2 ≤ q.1) := by
  have htod1 : ∀ w, w < 7 → ∀ o c, calMonWrap w = some (o, c) →
      o < usPerDay ∧ c < usPerDay := by
    intro w hw o c h
    unfold calMonWrap at h
    by_cases h0 : w = 0
    · rw [if_pos h0] at h
      simp only [Option.some.injEq, Prod.mk.injEq] at h
      obtain ⟨rfl, rfl⟩ := h
      norm_num [usPerDay]
    · rw [if_neg h0] at h
      simp at h
  have htod2 : ∀ w, w < 7 → ∀ o c, defaultCal w = some (o, c) →
      o < usPerDay ∧ c < usPerDay := by
    intro w hw o c h
    unfold defaultCal at h
    rw [if_pos hw] at h
    simp only [Option.some.injEq, Prod.mk.injEq] at h
    obtain ⟨rfl, rfl⟩ := h
    norm_num [usPerDay]
  refine ⟨(spec_c5 0 (2 * usPerDay) calMonWrap htod1).2.1,
    (spec_c5 0 (2 * usPerDay) defaultCal htod2).2.2.2 ?_⟩
  intro w hw o c h
  unfold defaultCal at h
  rw [if_pos hw] at h
  simp only [Option.some.injEq, Prod.mk.injEq] at h
  obtain ⟨rfl, rfl⟩ := h
  norm_num

/-- C5 counterexample: with the calendar Monday 22:00–06:00 (wrapping) and
Tuesday 03:00–10:00, over the span Monday 00:00 – Wednesday 00:00, the
emitted intervals are not pairwise non-overlapping: Monday's
after-midnight piece `[Tue 00:00, Tue 06:00]` overlaps Tuesday's own
interval `[Tue 03:00, Tue 10:00]`. -/
theorem spec_c5_cex :
    ¬ (get_business_hours_intervals 0 (2 * usPerDay) calWrapTue).Pairwise
        (fun p q => p.2 ≤ q.1) := by
  decide
